import Mathlib

/-!
# Verification of the kademlia-go routing primitives

Shallow embedding of `node/id.go`, `node/node.go` and `routing/kbucket.go`
(BochkovDev/kademlia-go), together with proofs about the claims of the
natural-language specification.

Modelling conventions:
* Go `[20]byte` becomes `Fin 20 → Nat` (each entry a byte value);
* Go slices of nodes become `List Node`; `uint8` values become `Nat`
  (with `% 256` where Go truncates);
* `KBucket.Add` returns `Option KBucket`: `none` models the run-time panic
  of `kb.nodes = kb.nodes[1:]` on an empty slice (which Go raises when the
  bucket was created with `ksize == 0`), `some kb'` a normal completion;
* a separate heap/slice model (`GoSlice`, `Heap`) captures the aliasing
  behaviour of `Nodes()`, which returns the internal slice header without
  copying;
* a synchronization-event trace (`SyncEv`) records the `mu.Lock()` /
  `defer mu.Unlock()` actions each public method performs.
-/

namespace Kademlia

/-- `NodeID` models Go's `type NodeID [20]byte`: a 160-bit identifier. -/
def NodeID : Type := Fin 20 → Nat

instance : DecidableEq NodeID :=
  inferInstanceAs (DecidableEq (Fin 20 → Nat))

/-- `NodeID.Equals` models `func (id NodeID) Equals(other NodeID) bool`:
Go array equality `id == other`. -/
def NodeID.Equals (id other : NodeID) : Bool :=
  decide (id = other)

/-- `NodeID.XOR` models `func (id NodeID) XOR(other NodeID) [20]byte`:
byte-wise XOR of the two identifiers. -/
def NodeID.XOR (id other : NodeID) : NodeID :=
  fun i => Nat.xor (id i) (other i)

/-- The all-zero 20-byte value. -/
def zeroID : NodeID := fun _ => 0

/-- `Node` models the Go struct `node.Node`: an identifier plus network
address (`net.IP`, a byte sequence) and port (`uint16`). -/
structure Node where
  id : NodeID
  address : List Nat
  port : Nat
deriving DecidableEq

/-- `KBucket` models the Go struct `routing.KBucket` (the mutex field has
no data content; its synchronization actions are modelled by the event
traces below). -/
structure KBucket where
  nodes : List Node
  ksize : Nat
deriving DecidableEq

/-- `NewKBucket` models `func NewKBucket(ksize uint8) *KBucket`: an empty
node list with the given capacity. -/
def NewKBucket (ksize : Nat) : KBucket :=
  { nodes := [], ksize := ksize }

/-- `KBucket.Nodes` models `func (kb *KBucket) Nodes() []node.INode`
at the value level: it returns `kb.nodes` (see `KBucketM.NodesM` for the
slice-header/aliasing level). -/
def KBucket.Nodes (kb : KBucket) : List Node :=
  kb.nodes

/-- `KBucket.KSize` models `func (kb *KBucket) KSize() uint8`. -/
def KBucket.KSize (kb : KBucket) : Nat :=
  kb.ksize

/-- The scan-and-delete loop shared by `Add` and `Remove`:
`for i, n := range kb.nodes { if n.ID().Equals(id) { kb.nodes =
append(kb.nodes[:i], kb.nodes[i+1:]...); ... } }` — returns the list with
the first entry whose identifier equals `id` deleted, or `none` when no
entry matches. -/
def removeFirst (l : List Node) (id : NodeID) : Option (List Node) :=
  match l with
  | [] => none
  | x :: xs =>
    if x.id.Equals id then some xs
    else (removeFirst xs id).map (fun ys => x :: ys)

/-- `KBucket.Add` models `func (kb *KBucket) Add(newNode node.INode)`.
If an entry with an equal identifier exists it is deleted and `newNode`
appended at the tail; otherwise, when `len(kb.nodes) >= int(kb.ksize)`,
the head is dropped (`kb.nodes = kb.nodes[1:]` — which panics on an empty
slice, modelled by `none`) before `newNode` is appended. -/
def KBucket.Add (kb : KBucket) (newNode : Node) : Option KBucket :=
  match removeFirst kb.nodes newNode.id with
  | some rest => some { kb with nodes := rest ++ [newNode] }
  | none =>
    if kb.ksize ≤ kb.nodes.length then
      match kb.nodes with
      | [] => none
      | _ :: tail => some { kb with nodes := tail ++ [newNode] }
    else
      some { kb with nodes := kb.nodes ++ [newNode] }

/-- `KBucket.Remove` models `func (kb *KBucket) Remove(id node.NodeID)`:
delete the first entry whose identifier equals `id`, no-op when absent. -/
def KBucket.Remove (kb : KBucket) (id : NodeID) : KBucket :=
  match removeFirst kb.nodes id with
  | some rest => { kb with nodes := rest }
  | none => kb

/-- The membership scan of `Contains`:
`for _, n := range kb.nodes { if n.ID().Equals(id) { return true } }`. -/
def containsId (l : List Node) (id : NodeID) : Bool :=
  l.any (fun n => n.id.Equals id)

/-- `KBucket.Contains` models `func (kb *KBucket) Contains(id node.NodeID) bool`,
returned together with the (unchanged) receiver state. -/
def KBucket.Contains (kb : KBucket) (id : NodeID) : KBucket × Bool :=
  (kb, containsId kb.nodes id)

/-- `KBucket.IsFull` models `func (kb *KBucket) IsFull() bool`:
`len(kb.nodes) >= int(kb.ksize)`, with the unchanged receiver state. -/
def KBucket.IsFull (kb : KBucket) : KBucket × Bool :=
  (kb, decide (kb.ksize ≤ kb.nodes.length))

/-- `KBucket.Size` models `func (kb *KBucket) Size() uint8`:
`uint8(len(kb.nodes))`, a truncating conversion, with the unchanged
receiver state. -/
def KBucket.Size (kb : KBucket) : KBucket × Nat :=
  (kb, kb.nodes.length % 256)

/-- `KBucket.Clear` models `func (kb *KBucket) Clear()`: `kb.nodes = nil`. -/
def KBucket.Clear (kb : KBucket) : KBucket :=
  { kb with nodes := [] }

/-- One public bucket operation. -/
inductive Op where
  | add (n : Node)
  | remove (id : NodeID)
  | clear
  | contains (id : NodeID)
  | isFull
  | size
  | nodesQ
  | ksizeQ
deriving DecidableEq

/-- The state transition of one public operation. A panicking `Add`
(`kb.nodes[1:]` on an empty slice) aborts before any field of the bucket
is assigned, so it leaves the state unchanged. Query operations perform
no assignment. -/
def KBucket.step (kb : KBucket) : Op → KBucket
  | Op.add n => (kb.Add n).getD kb
  | Op.remove id => kb.Remove id
  | Op.clear => kb.Clear
  | Op.contains id => (kb.Contains id).1
  | Op.isFull => kb.IsFull.1
  | Op.size => kb.Size.1
  | Op.nodesQ => kb
  | Op.ksizeQ => kb

/-- Run a sequence of operations on a freshly created bucket. -/
def run (ksize : Nat) (ops : List Op) : KBucket :=
  ops.foldl KBucket.step (NewKBucket ksize)

/-! ## Heap-level model of Go slices, for the aliasing behaviour of `Nodes()`

A Go slice value is a header `(backing array, offset, length)`; the element
data lives in a heap-allocated backing array. `Nodes()` returns `kb.nodes`,
i.e. the bucket's own slice header, without copying the elements, so a write
through the returned slice lands in the bucket's backing array. -/

/-- A Go slice header: a reference to a backing array plus offset and length. -/
structure GoSlice where
  ref : Nat
  start : Nat
  len : Nat
deriving DecidableEq

/-- The heap: contents of every backing array, indexed by reference. -/
structure Heap where
  store : Nat → List Node

/-- The heap-level bucket: its `nodes` field is a slice header. -/
structure KBucketM where
  nodes : GoSlice
  ksize : Nat

/-- The element sequence a slice header denotes in a heap. -/
def Heap.read (h : Heap) (s : GoSlice) : List Node :=
  ((h.store s.ref).drop s.start).take s.len

/-- `KBucketM.NodesM` is `func (kb *KBucket) Nodes() []node.INode` at the
heap level: `return kb.nodes` hands out the internal slice header itself,
with no copy of the elements and no lock acquisition. -/
def KBucketM.NodesM (kb : KBucketM) : GoSlice :=
  kb.nodes

/-- The Go statement `s[i] = v`: writes through the slice header into its
backing array. -/
def Heap.writeIdx (h : Heap) (s : GoSlice) (i : Nat) (v : Node) : Heap :=
  { store := fun r => if r = s.ref then (h.store r).set (s.start + i) v else h.store r }

/-! ## Synchronization traces

`Add`, `Remove`, `Contains`, `IsFull`, `Size` and `Clear` all start with
`kb.mu.Lock()` and schedule `defer kb.mu.Unlock()`, so on every exit path
their mutex trace is acquire-then-release. The bodies of `Nodes()` and
`KSize()` contain no mutex operation at all. -/

/-- A mutex action on `kb.mu`. -/
inductive SyncEv where
  | lock
  | unlock
deriving DecidableEq

/-- The sequence of `kb.mu` actions each public method performs, transcribed
from its body (`defer` makes the `Unlock` fire on every exit path). -/
def methodSync : Op → List SyncEv
  | Op.add _ => [SyncEv.lock, SyncEv.unlock]
  | Op.remove _ => [SyncEv.lock, SyncEv.unlock]
  | Op.clear => [SyncEv.lock, SyncEv.unlock]
  | Op.contains _ => [SyncEv.lock, SyncEv.unlock]
  | Op.isFull => [SyncEv.lock, SyncEv.unlock]
  | Op.size => [SyncEv.lock, SyncEv.unlock]
  | Op.nodesQ => []
  | Op.ksizeQ => []

/-- A method holds the lock for its full duration and releases it on every
exit path exactly when its trace is a single acquire/release pair. -/
def wellLocked (t : List SyncEv) : Prop :=
  t = [SyncEv.lock, SyncEv.unlock]

/-! ## Invariant and concrete sample peers -/

/-- No two entries of the list share an identifier. -/
def uniqIds (l : List Node) : Prop :=
  l.Pairwise (fun a b => a.id ≠ b.id)

/-- The bucket invariant: at most `ksize` entries, pairwise distinct
identifiers. -/
def Inv (kb : KBucket) : Prop :=
  kb.nodes.length ≤ kb.ksize ∧ uniqIds kb.nodes

/-- A sample identifier whose 20 bytes all equal `b`. -/
def bid (b : Nat) : NodeID := fun _ => b

/-- A sample peer with identifier `bid b`. -/
def pn (b : Nat) : Node :=
  { id := bid b, address := [192, 168, 1, 1], port := 8080 }

/-- A peer carrying the same identifier as `pn 1` but new connection data. -/
def pn1new : Node :=
  { id := bid 1, address := [10, 0, 0, 1], port := 9090 }

/-- A concrete heap: backing array 0 holds the single peer `pn 1`. -/
def exHeap0 : Heap :=
  { store := fun r => if r = 0 then [pn 1] else [] }

/-- A concrete heap-level bucket of capacity 1 whose slice covers all of
backing array 0. -/
def exBucketM : KBucketM :=
  { nodes := { ref := 0, start := 0, len := 1 }, ksize := 1 }

/-- The heap after the caller writes `pn 2` into slot 0 of the slice
returned by `Nodes()`. -/
def exHeap1 : Heap :=
  exHeap0.writeIdx exBucketM.NodesM 0 (pn 2)

/-! ## Helper lemmas -/

theorem NodeID.Equals_iff {a b : NodeID} : a.Equals b = true ↔ a = b := by
  simp [NodeID.Equals]

theorem NodeID.Equals_eq_false_iff {a b : NodeID} : a.Equals b = false ↔ a ≠ b := by
  simp [NodeID.Equals]

theorem removeFirst_eq_none_iff {l : List Node} {id : NodeID} :
    removeFirst l id = none ↔ ∀ x ∈ l, x.id ≠ id := by
  induction l with
  | nil => simp [removeFirst]
  | cons x xs ih =>
    by_cases h : x.id = id
    · simp [removeFirst, NodeID.Equals, h]
    · simp [removeFirst, NodeID.Equals, h, ih]

theorem removeFirst_some_spec {l : List Node} {id : NodeID} {l' : List Node}
    (h : removeFirst l id = some l') :
    ∃ pre e post, l = pre ++ e :: post ∧ e.id = id ∧
      (∀ x ∈ pre, x.id ≠ id) ∧ l' = pre ++ post := by
  induction l generalizing l' with
  | nil => simp [removeFirst] at h
  | cons x xs ih =>
    by_cases hx : x.id = id
    · refine ⟨[], x, xs, by simp, hx, by simp, ?_⟩
      simpa [removeFirst, NodeID.Equals, hx] using h.symm
    · simp only [removeFirst, NodeID.Equals, hx, decide_False, if_neg Bool.false_ne_true,
        Option.map_eq_some'] at h
      obtain ⟨ys, hys, hl'⟩ := h
      obtain ⟨pre, e, post, hdec, he, hpre, hys'⟩ := ih hys
      refine ⟨x :: pre, e, post, by simp [hdec], he, ?_, by simp [hl'.symm, hys']⟩
      intro y hy
      rcases List.mem_cons.mp hy with rfl | hy
      · exact hx
      · exact hpre y hy

theorem removeFirst_append {pre : List Node} {e : Node} {post : List Node} {id : NodeID}
    (he : e.id = id) (hpre : ∀ x ∈ pre, x.id ≠ id) :
    removeFirst (pre ++ e :: post) id = some (pre ++ post) := by
  induction pre with
  | nil => simp [removeFirst, NodeID.Equals, he]
  | cons x xs ih =>
    have hx : x.id ≠ id := hpre x (by simp)
    have : removeFirst (xs ++ e :: post) id = some (xs ++ post) :=
      ih (fun y hy => hpre y (by simp [hy]))
    simp [removeFirst, NodeID.Equals, hx, this]

theorem removeFirst_sublist {l : List Node} {id : NodeID} {l' : List Node}
    (h : removeFirst l id = some l') : l'.Sublist l := by
  obtain ⟨pre, e, post, hdec, -, -, hl'⟩ := removeFirst_some_spec h
  rw [hdec, hl']
  exact (List.Sublist.refl pre).append (List.sublist_cons_self e post)

theorem removeFirst_length {l : List Node} {id : NodeID} {l' : List Node}
    (h : removeFirst l id = some l') : l'.length + 1 = l.length := by
  obtain ⟨pre, e, post, hdec, -, -, hl'⟩ := removeFirst_some_spec h
  simp [hdec, hl']
  omega

theorem containsId_iff {l : List Node} {id : NodeID} :
    containsId l id = true ↔ ∃ x ∈ l, x.id = id := by
  simp [containsId, NodeID.Equals, List.any_eq_true]

theorem containsId_eq_false_iff {l : List Node} {id : NodeID} :
    containsId l id = false ↔ ∀ x ∈ l, x.id ≠ id := by
  simp [containsId, NodeID.Equals]

theorem uniq_append_singleton {l : List Node} {n : Node}
    (hu : uniqIds l) (hfresh : ∀ x ∈ l, x.id ≠ n.id) : uniqIds (l ++ [n]) := by
  rw [uniqIds, List.pairwise_append]
  exact ⟨hu, List.pairwise_singleton _ _, fun a ha b hb => by
    rw [List.mem_singleton.mp hb]; exact hfresh a ha⟩

theorem uniq_of_removeFirst {l : List Node} {id : NodeID} {l' : List Node}
    (h : removeFirst l id = some l') (hu : uniqIds l) : uniqIds l' :=
  hu.sublist (removeFirst_sublist h)

theorem removeFirst_fresh {l : List Node} {id : NodeID} {l' : List Node}
    (h : removeFirst l id = some l') (hu : uniqIds l) :
    ∀ x ∈ l', x.id ≠ id := by
  obtain ⟨pre, e, post, hdec, he, hpre, hl'⟩ := removeFirst_some_spec h
  subst hdec hl'
  intro x hx
  rcases List.mem_append.mp hx with hx | hx
  · exact hpre x hx
  · have hcons : (e :: post).Pairwise (fun a b => a.id ≠ b.id) :=
      (List.pairwise_append.mp hu).2.1
    have : e.id ≠ x.id := (List.pairwise_cons.mp hcons).1 x hx
    rw [← he]
    exact fun hh => this hh.symm

theorem Add_some_ksize {kb : KBucket} {n : Node} {kb' : KBucket}
    (h : kb.Add n = some kb') : kb'.ksize = kb.ksize := by
  unfold KBucket.Add at h
  cases hrf : removeFirst kb.nodes n.id with
  | some rest => rw [hrf] at h; cases h; rfl
  | none =>
    rw [hrf] at h
    by_cases hfull : kb.ksize ≤ kb.nodes.length
    · rw [if_pos hfull] at h
      cases hn : kb.nodes with
      | nil => rw [hn] at h; cases h
      | cons hd tl => rw [hn] at h; cases h; rfl
    · rw [if_neg hfull] at h; cases h; rfl

theorem step_ksize (kb : KBucket) (op : Op) : (kb.step op).ksize = kb.ksize := by
  cases op with
  | add n =>
    cases h : kb.Add n with
    | none => simp [KBucket.step, h]
    | some kb' => simp [KBucket.step, h, Add_some_ksize h]
  | remove id =>
    simp only [KBucket.step, KBucket.Remove]
    cases removeFirst kb.nodes id <;> rfl
  | clear => rfl
  | contains id => rfl
  | isFull => rfl
  | size => rfl
  | nodesQ => rfl
  | ksizeQ => rfl

theorem Inv_Add {kb : KBucket} {n : Node} {kb' : KBucket}
    (hInv : Inv kb) (h : kb.Add n = some kb') : Inv kb' := by
  obtain ⟨hlen, huniq⟩ := hInv
  unfold KBucket.Add at h
  cases hrf : removeFirst kb.nodes n.id with
  | some rest =>
    rw [hrf, Option.some.injEq] at h
    subst h
    refine ⟨?_, uniq_append_singleton (uniq_of_removeFirst hrf huniq)
      (removeFirst_fresh hrf huniq)⟩
    have := removeFirst_length hrf
    simp only [List.length_append, List.length_singleton]
    omega
  | none =>
    rw [hrf] at h
    have hfresh : ∀ x ∈ kb.nodes, x.id ≠ n.id := removeFirst_eq_none_iff.mp hrf
    by_cases hfull : kb.ksize ≤ kb.nodes.length
    · rw [if_pos hfull] at h
      cases hn : kb.nodes with
      | nil => rw [hn] at h; cases h
      | cons hd tl =>
        rw [hn, Option.some.injEq] at h
        subst h
        have hlen' : tl.length + 1 ≤ kb.ksize := by
          have : kb.nodes.length = tl.length + 1 := by rw [hn]; rfl
          omega
        refine ⟨by simpa using hlen', ?_⟩
        have htl : uniqIds tl := by
          have := huniq
          rw [uniqIds, hn, List.pairwise_cons] at this
          exact this.2
        exact uniq_append_singleton htl
          (fun x hx => hfresh x (by rw [hn]; exact List.mem_cons_of_mem _ hx))
    · rw [if_neg hfull] at h
      rw [Option.some.injEq] at h
      subst h
      refine ⟨?_, uniq_append_singleton huniq hfresh⟩
      simp only [List.length_append, List.length_singleton]
      omega

theorem Inv_Remove {kb : KBucket} (hInv : Inv kb) (id : NodeID) :
    Inv (kb.Remove id) := by
  obtain ⟨hlen, huniq⟩ := hInv
  unfold KBucket.Remove
  cases hrf : removeFirst kb.nodes id with
  | some rest =>
    refine ⟨?_, uniq_of_removeFirst hrf huniq⟩
    have := removeFirst_length hrf
    simp only
    omega
  | none => exact ⟨hlen, huniq⟩

theorem Inv_step {kb : KBucket} (hInv : Inv kb) (op : Op) : Inv (kb.step op) := by
  cases op with
  | add n =>
    cases h : kb.Add n with
    | none => simpa [KBucket.step, h] using hInv
    | some kb' => simpa [KBucket.step, h] using Inv_Add hInv h
  | remove id => exact Inv_Remove hInv id
  | clear => exact ⟨Nat.zero_le _, List.Pairwise.nil⟩
  | contains id => exact hInv
  | isFull => exact hInv
  | size => exact hInv
  | nodesQ => exact hInv
  | ksizeQ => exact hInv

theorem Inv_foldl (ops : List Op) {kb : KBucket} (hInv : Inv kb) :
    Inv (ops.foldl KBucket.step kb) := by
  induction ops generalizing kb with
  | nil => exact hInv
  | cons op ops ih => exact ih (Inv_step hInv op)

theorem Inv_NewKBucket (k : Nat) : Inv (NewKBucket k) :=
  ⟨Nat.zero_le _, List.Pairwise.nil⟩

theorem Inv_run (k : Nat) (ops : List Op) : Inv (run k ops) :=
  Inv_foldl ops (Inv_NewKBucket k)

theorem Heap.read_writeIdx {h : Heap} {s : GoSlice} {i : Nat} {v : Node}
    (hi : i < s.len) (hfit : s.start + s.len ≤ (h.store s.ref).length) :
    (h.writeIdx s i v).read s = (h.read s).set i v := by
  apply List.ext_getElem?
  intro j
  simp only [Heap.read, Heap.writeIdx, if_true]
  have hL : ((((h.store s.ref).set (s.start + i) v).drop s.start).take s.len)[j]? =
      if j < s.len then (if i = j then some v else (h.store s.ref)[s.start + j]?) else none := by
    rw [List.getElem?_take]
    by_cases hj : j < s.len
    · rw [if_pos hj, if_pos hj, List.getElem?_drop, List.getElem?_set]
      by_cases hij : i = j
      · rw [if_pos (show s.start + i = s.start + j by omega), if_pos hij,
          if_pos (show s.start + i < (h.store s.ref).length by omega)]
      · rw [if_neg (show ¬ s.start + i = s.start + j by omega), if_neg hij]
    · rw [if_neg hj, if_neg hj]
  have hR : ((((h.store s.ref).drop s.start).take s.len).set i v)[j]? =
      if j < s.len then (if i = j then some v else (h.store s.ref)[s.start + j]?) else none := by
    rw [List.getElem?_set]
    by_cases hij : i = j
    · rw [if_pos hij,
        if_pos (show i < (((h.store s.ref).drop s.start).take s.len).length by
          rw [List.length_take, List.length_drop]; omega),
        if_pos (show j < s.len by omega), if_pos hij]
    · rw [if_neg hij, List.getElem?_take]
      by_cases hj : j < s.len
      · rw [if_pos hj, if_pos hj, if_neg hij, List.getElem?_drop]
      · rw [if_neg hj, if_neg hj]
  rw [hL, hR]

theorem foldl_ksize (ops : List Op) (kb : KBucket) :
    (ops.foldl KBucket.step kb).ksize = kb.ksize := by
  induction ops generalizing kb with
  | nil => rfl
  | cons op ops ih => rw [List.foldl_cons, ih, step_ksize]

theorem run_ksize (k : Nat) (ops : List Op) : (run k ops).ksize = k :=
  foldl_ksize ops (NewKBucket k)

/-! ## Claim theorems -/

/-- C1: for every bucket created by `NewKBucket k` and every sequence of
operations, after each completed operation the entry sequence holds at most
`k` entries and no two entries have identifiers that compare equal under
`Equals`. -/
theorem C1_bucket_invariants (k : Nat) (ops : List Op) :
    (run k ops).nodes.length ≤ k ∧
    (run k ops).nodes.Pairwise (fun a b => a.id.Equals b.id = false) := by
  obtain ⟨hlen, huniq⟩ := Inv_run k ops
  rw [run_ksize k ops] at hlen
  exact ⟨hlen, huniq.imp fun hab => NodeID.Equals_eq_false_iff.mpr hab⟩

/-- C2: when the bucket holds exactly `ksize ≥ 1` entries and none of them
matches the new node's identifier, `Add` drops the head entry and appends
the new node at the tail. -/
theorem C2_full_bucket_evicts_head (kb : KBucket) (n : Node)
    (hk : 1 ≤ kb.ksize) (hfull : kb.nodes.length = kb.ksize)
    (habs : ∀ x ∈ kb.nodes, x.id.Equals n.id = false) :
    kb.Add n = some { kb with nodes := kb.nodes.drop 1 ++ [n] } := by
  have hrf : removeFirst kb.nodes n.id = none :=
    removeFirst_eq_none_iff.mpr
      (fun x hx => NodeID.Equals_eq_false_iff.mp (habs x hx))
  unfold KBucket.Add
  rw [hrf, if_pos (show kb.ksize ≤ kb.nodes.length by omega)]
  cases hn : kb.nodes with
  | nil =>
    rw [hn] at hfull
    exfalso
    simp at hfull
    omega
  | cons hd tl => rfl

/-- C2 witness: capacity 3, sequential adds of `pn 1 … pn 4`; after the
fourth add the bucket holds exactly `pn 2, pn 3, pn 4` and not `pn 1`. -/
theorem C2_full_bucket_evicts_head_witness :
    ({ nodes := [pn 1, pn 2, pn 3], ksize := 3 } : KBucket).Add (pn 4)
      = some { nodes := [pn 2, pn 3, pn 4], ksize := 3 } ∧
    run 3 [Op.add (pn 1), Op.add (pn 2), Op.add (pn 3), Op.add (pn 4)]
      = { nodes := [pn 2, pn 3, pn 4], ksize := 3 } ∧
    containsId [pn 2, pn 3, pn 4] (pn 1).id = false := by
  refine ⟨?_, by decide, by decide⟩
  exact C2_full_bucket_evicts_head
    { nodes := [pn 1, pn 2, pn 3], ksize := 3 } (pn 4)
    (by decide) (by decide) (by decide)

/-- C4: the claim that `Add` never fails is wrong for a bucket created with
`ksize = 0`: the eviction statement `kb.nodes = kb.nodes[1:]` runs on an
empty slice and panics, so `Add` aborts (modelled as `none`) instead of
completing as a no-op. -/
theorem C4_zero_capacity_add_panics :
    (∀ n : Node, (NewKBucket 0).Add n = none) ∧
    (NewKBucket 0).Add (pn 1) = none :=
  ⟨fun _ => rfl, rfl⟩

/-- C8: byte-wise XOR of identifiers is commutative, self-inverse to the
all-zero value, and its own inverse. -/
theorem C8_xor_algebra (a b : NodeID) :
    a.XOR b = b.XOR a ∧ a.XOR a = zeroID ∧ (a.XOR b).XOR b = a :=
  ⟨funext fun i => Nat.xor_comm (a i) (b i),
   funext fun i => Nat.xor_self (a i),
   funext fun i => Nat.xor_cancel_right (b i) (a i)⟩

/-- C9 counterexample: the claim says every public method (including
`Nodes` and `KSize`) acquires the mutex for its full duration, but the
bodies of `Nodes()` and `KSize()` perform no mutex action at all. -/
theorem C9_nodes_ksize_do_not_lock :
    ¬ wellLocked (methodSync Op.nodesQ) ∧ ¬ wellLocked (methodSync Op.ksizeQ) := by
  constructor <;> intro h <;> simp [methodSync, wellLocked] at h

/-- C9 amended: `Add`, `Remove`, `Clear`, `Contains`, `IsFull` and `Size`
each acquire the mutex at entry and release it (via `defer`) on every exit
path, while `Nodes` and `KSize` access the bucket without any mutex
action. -/
theorem C9_lock_discipline (n : Node) (id id2 : NodeID) :
    wellLocked (methodSync (Op.add n)) ∧
    wellLocked (methodSync (Op.remove id)) ∧
    wellLocked (methodSync Op.clear) ∧
    wellLocked (methodSync (Op.contains id2)) ∧
    wellLocked (methodSync Op.isFull) ∧
    wellLocked (methodSync Op.size) ∧
    methodSync Op.nodesQ = [] ∧
    methodSync Op.ksizeQ = [] :=
  ⟨rfl, rfl, rfl, rfl, rfl, rfl, rfl, rfl⟩

/-- C3: if the bucket holds an entry whose identifier equals the incoming
node's, `Add` removes that entry from its position and appends the incoming
record (with its own address/port) at the tail, leaving the size
unchanged. -/
theorem C3_readd_refreshes (kb : KBucket) (n : Node)
    (pre : List Node) (e : Node) (post : List Node)
    (hsplit : kb.nodes = pre ++ e :: post)
    (he : e.id.Equals n.id = true)
    (hpre : ∀ x ∈ pre, x.id.Equals n.id = false) :
    kb.Add n = some { kb with nodes := (pre ++ post) ++ [n] } ∧
    ((pre ++ post) ++ [n]).length = kb.nodes.length := by
  have hrf : removeFirst kb.nodes n.id = some (pre ++ post) := by
    rw [hsplit]
    exact removeFirst_append (NodeID.Equals_iff.mp he)
      (fun x hx => NodeID.Equals_eq_false_iff.mp (hpre x hx))
  constructor
  · unfold KBucket.Add
    rw [hrf]
  · rw [hsplit]
    simp only [List.length_append, List.length_cons, List.length_singleton,
      List.length_nil]
    omega

/-- C3 witness: capacity 3 holding `pn 1, pn 2, pn 3`; re-adding the same
identifier with new connection data (`pn1new`) then adding `pn 4` evicts
`pn 2` and leaves the refreshed `pn 1` record present. -/
theorem C3_readd_refreshes_witness :
    ({ nodes := [pn 1, pn 2, pn 3], ksize := 3 } : KBucket).Add pn1new
      = some { nodes := [pn 2, pn 3, pn1new], ksize := 3 } ∧
    ({ nodes := [pn 2, pn 3, pn1new], ksize := 3 } : KBucket).Add (pn 4)
      = some { nodes := [pn 3, pn1new, pn 4], ksize := 3 } ∧
    containsId [pn 3, pn1new, pn 4] (bid 1) = true ∧
    containsId [pn 3, pn1new, pn 4] (bid 2) = false := by
  refine ⟨?_, by decide, by decide, by decide⟩
  exact (C3_readd_refreshes { nodes := [pn 1, pn 2, pn 3], ksize := 3 } pn1new
    [] (pn 1) [pn 2, pn 3] rfl (by decide) (by decide)).1

/-- C5 counterexample: the claim says `Nodes()` returns an isolated
snapshot, but writing through the returned slice changes the bucket's
internal entry sequence from `[pn 1]` to `[pn 2]`. -/
theorem C5_snapshot_counterexample :
    ¬ (exHeap1.read exBucketM.nodes = exHeap0.read exBucketM.nodes) ∧
    exHeap0.read exBucketM.nodes = [pn 1] ∧
    exHeap1.read exBucketM.nodes = [pn 2] := by
  refine ⟨by decide, by decide, by decide⟩

/-- C5 amended: `Nodes()` returns the bucket's internal slice header
itself (same backing array, offset and length), not a copy, so a write
through the returned slice is a write to the bucket's own entry
sequence. -/
theorem C5_nodes_returns_alias (h : Heap) (kb : KBucketM) (i : Nat) (v : Node)
    (hi : i < kb.nodes.len)
    (hfit : kb.nodes.start + kb.nodes.len ≤ (h.store kb.nodes.ref).length) :
    kb.NodesM = kb.nodes ∧
    (h.writeIdx kb.NodesM i v).read kb.nodes = (h.read kb.nodes).set i v :=
  ⟨rfl, Heap.read_writeIdx hi hfit⟩

/-- C5 amended, witness at the concrete heap. -/
theorem C5_nodes_returns_alias_witness :
    exBucketM.NodesM = exBucketM.nodes ∧
    exHeap1.read exBucketM.nodes = (exHeap0.read exBucketM.nodes).set 0 (pn 2) :=
  C5_nodes_returns_alias exHeap0 exBucketM 0 (pn 2) (by decide) (by decide)

/-- C6: a peer is never silently lost — if an identifier is present before
an operation and absent after it, the operation was `Remove` of that
identifier, `Clear`, or an `Add` of a node with a new identifier that
evicted the head entry while the bucket was at capacity. -/
theorem C6_no_silent_loss (kb : KBucket) (op : Op) (id : NodeID)
    (hInv : Inv kb)
    (hbefore : containsId kb.nodes id = true)
    (hafter : containsId (kb.step op).nodes id = false) :
    op = Op.remove id ∨ op = Op.clear ∨
    (∃ n, op = Op.add n ∧ kb.nodes.length = kb.ksize ∧
      containsId kb.nodes n.id = false ∧
      kb.nodes.head?.map Node.id = some id) := by
  obtain ⟨x, hxmem, hxid⟩ := containsId_iff.mp hbefore
  cases op with
  | add n =>
    cases hAdd : kb.Add n with
    | none =>
      exfalso
      rw [show (kb.step (Op.add n)) = (kb.Add n).getD kb from rfl, hAdd] at hafter
      have hsame : containsId kb.nodes id = false := hafter
      rw [hbefore] at hsame
      simp at hsame
    | some kb' =>
      rw [show (kb.step (Op.add n)) = (kb.Add n).getD kb from rfl, hAdd] at hafter
      have hafter' : containsId kb'.nodes id = false := hafter
      unfold KBucket.Add at hAdd
      cases hrf : removeFirst kb.nodes n.id with
      | some rest =>
        exfalso
        rw [hrf, Option.some.injEq] at hAdd
        subst hAdd
        have hnodes : ({ kb with nodes := rest ++ [n] } : KBucket).nodes
            = rest ++ [n] := rfl
        rw [hnodes, containsId_eq_false_iff] at hafter'
        have hn_ne : n.id ≠ id := hafter' n (List.mem_append_right _ (List.mem_singleton_self n))
        obtain ⟨pre, e, post, hdec, heid, hpree, hrest⟩ := removeFirst_some_spec hrf
        rw [hdec] at hxmem
        rcases List.mem_append.mp hxmem with hx | hx
        · exact hafter' x
            (List.mem_append_left _ (by rw [hrest]; exact List.mem_append_left _ hx)) hxid
        · rcases List.mem_cons.mp hx with rfl | hx
          · exact hn_ne (heid ▸ hxid)
          · exact hafter' x
              (List.mem_append_left _ (by rw [hrest]; exact List.mem_append_right _ hx)) hxid
      | none =>
        rw [hrf] at hAdd
        by_cases hfull : kb.ksize ≤ kb.nodes.length
        · rw [if_pos hfull] at hAdd
          cases hn : kb.nodes with
          | nil =>
            rw [hn] at hAdd
            cases hAdd
          | cons hd tl =>
            rw [hn, Option.some.injEq] at hAdd
            subst hAdd
            have hnodes : ({ kb with nodes := tl ++ [n] } : KBucket).nodes
                = tl ++ [n] := rfl
            rw [hnodes, containsId_eq_false_iff] at hafter'
            refine Or.inr (Or.inr ⟨n, rfl, le_antisymm (hn ▸ hInv.1) (hn ▸ hfull), ?_, ?_⟩)
            · rw [containsId_eq_false_iff]
              exact removeFirst_eq_none_iff.mp (hn ▸ hrf)
            · rw [hn] at hxmem
              rcases List.mem_cons.mp hxmem with rfl | hx
              · simp [hxid]
              · exact absurd hxid (hafter' x (List.mem_append_left _ hx))
        · exfalso
          rw [if_neg hfull, Option.some.injEq] at hAdd
          subst hAdd
          have hnodes : ({ kb with nodes := kb.nodes ++ [n] } : KBucket).nodes
              = kb.nodes ++ [n] := rfl
          rw [hnodes, containsId_eq_false_iff] at hafter'
          exact hafter' x (List.mem_append_left _ hxmem) hxid
  | remove rid =>
    cases hrf : removeFirst kb.nodes rid with
    | none =>
      exfalso
      have hstep : kb.step (Op.remove rid) = kb := by
        show kb.Remove rid = kb
        unfold KBucket.Remove
        rw [hrf]
      rw [hstep, hbefore] at hafter
      simp at hafter
    | some rest =>
      have hstep : (kb.step (Op.remove rid)).nodes = rest := by
        show (kb.Remove rid).nodes = rest
        unfold KBucket.Remove
        rw [hrf]
      rw [hstep, containsId_eq_false_iff] at hafter
      obtain ⟨pre, e, post, hdec, heid, hpree, hrest⟩ := removeFirst_some_spec hrf
      rw [hdec] at hxmem
      rcases List.mem_append.mp hxmem with hx | hx
      · exact absurd hxid (hafter x (by rw [hrest]; exact List.mem_append_left _ hx))
      · rcases List.mem_cons.mp hx with rfl | hx
        · exact Or.inl (by rw [show rid = id from by rw [← heid, hxid]])
        · exact absurd hxid (hafter x (by rw [hrest]; exact List.mem_append_right _ hx))
  | clear => exact Or.inr (Or.inl rfl)
  | contains cid =>
    exfalso
    have hsame : containsId kb.nodes id = false := hafter
    rw [hbefore] at hsame
    simp at hsame
  | isFull =>
    exfalso
    have hsame : containsId kb.nodes id = false := hafter
    rw [hbefore] at hsame
    simp at hsame
  | size =>
    exfalso
    have hsame : containsId kb.nodes id = false := hafter
    rw [hbefore] at hsame
    simp at hsame
  | nodesQ =>
    exfalso
    have hsame : containsId kb.nodes id = false := hafter
    rw [hbefore] at hsame
    simp at hsame
  | ksizeQ =>
    exfalso
    have hsame : containsId kb.nodes id = false := hafter
    rw [hbefore] at hsame
    simp at hsame

/-- C6 witness: a full capacity-1 bucket holding `pn 1` loses `bid 1` when
`pn 2` is added, and the disjunction selects the head-eviction case. -/
theorem C6_no_silent_loss_witness :
    Op.add (pn 2) = Op.remove (bid 1) ∨ Op.add (pn 2) = Op.clear ∨
    (∃ n, Op.add (pn 2) = Op.add n ∧
      ([pn 1] : List Node).length = 1 ∧
      containsId [pn 1] n.id = false ∧
      ([pn 1] : List Node).head?.map Node.id = some (bid 1)) :=
  C6_no_silent_loss { nodes := [pn 1], ksize := 1 } (Op.add (pn 2)) (bid 1)
    (by constructor
        · decide
        · exact List.pairwise_singleton _ _)
    (by decide) (by decide)

/-- C7: `Remove` never fails — on an absent identifier the bucket is
unchanged; on a present identifier exactly the (first) matching entry is
removed, the relative order of the remaining entries and the capacity
being preserved. -/
theorem C7_remove_total_and_order_preserving (kb : KBucket) (id : NodeID) :
    (containsId kb.nodes id = false → kb.Remove id = kb) ∧
    (∀ pre e post, kb.nodes = pre ++ e :: post → e.id.Equals id = true →
      (∀ x ∈ pre, x.id.Equals id = false) →
      (kb.Remove id).nodes = pre ++ post ∧ (kb.Remove id).ksize = kb.ksize) := by
  constructor
  · intro habs
    have hrf : removeFirst kb.nodes id = none :=
      removeFirst_eq_none_iff.mpr (containsId_eq_false_iff.mp habs)
    unfold KBucket.Remove
    rw [hrf]
  · intro pre e post hsplit he hpre
    have hrf : removeFirst kb.nodes id = some (pre ++ post) := by
      rw [hsplit]
      exact removeFirst_append (NodeID.Equals_iff.mp he)
        (fun x hx => NodeID.Equals_eq_false_iff.mp (hpre x hx))
    unfold KBucket.Remove
    rw [hrf]
    exact ⟨rfl, rfl⟩

/-- C7 witness: removing an absent identifier from `[pn 1]` is a no-op;
removing the present identifier empties the bucket. -/
theorem C7_remove_total_and_order_preserving_witness :
    (({ nodes := [pn 1], ksize := 1 } : KBucket).Remove (bid 2)
      = { nodes := [pn 1], ksize := 1 }) ∧
    (({ nodes := [pn 1], ksize := 1 } : KBucket).Remove (bid 1)).nodes = [] := by
  constructor
  · exact (C7_remove_total_and_order_preserving
      { nodes := [pn 1], ksize := 1 } (bid 2)).1 (by decide)
  · exact ((C7_remove_total_and_order_preserving
      { nodes := [pn 1], ksize := 1 } (bid 1)).2 [] (pn 1) [] rfl
      (by decide) (by decide)).1

/-- C10: no operation changes the capacity — after any operation sequence
`KSize` still returns the value passed to `NewKBucket` — and the query
methods return the receiver state unchanged. -/
theorem C10_capacity_and_query_frame (k : Nat) (ops : List Op)
    (kb : KBucket) (id : NodeID) :
    (run k ops).KSize = k ∧
    (kb.Contains id).1 = kb ∧ kb.IsFull.1 = kb ∧ kb.Size.1 = kb :=
  ⟨run_ksize k ops, rfl, rfl, rfl⟩

end Kademlia
